import Mathlib

/-!
Shallow embedding of the bond-order / formal-charge repair pass
(function update_bonds_and_charges of prolif/utils.py) together with
the valence-deficit calculation it is built on.

The molecule is modelled as a list of atomic numbers, a list of formal
charges and a list of bonds; the periodic-table valence lookup and the
final sanitization check are external collaborators and are passed in as
parameters (a partial map from atomic numbers to valence lists, and a
boolean predicate on molecules).  Bond-order contributions are kept in
doubled form (single = 2, aromatic = 3, double = 4, triple = 6) so that
the aromatic contribution of 1.5 stays integral; the total valence of an
atom is half the sum of the doubled contributions of its incident bonds.
The pass additionally returns the list of observable events it performs
(valence reads, charge writes, bond-type writes, property-cache updates
and the final sanitization call), in order, so that temporal claims
about the call sequence can be stated.
-/

inductive BondType
  | single
  | double
  | triple
  | aromatic
deriving DecidableEq

/-- Doubled bond-order contribution of a bond type (aromatic counts 1.5). -/
def BondType.contrib2 : BondType → Nat
  | .single => 2
  | .double => 4
  | .triple => 6
  | .aromatic => 3

structure Bond where
  a1 : Nat
  a2 : Nat
  btype : BondType
deriving DecidableEq

structure Mol where
  atomicNum : List Nat
  charge : List Int
  bonds : List Bond
deriving DecidableEq

/-- Atomic number of atom a (0 when the index is out of range). -/
def Mol.getAtomicNum (m : Mol) (a : Nat) : Nat :=
  m.atomicNum.getD a 0

/-- GetTotalValence: half the sum of doubled bond-order contributions of
the bonds incident to atom a.  Hydrogens are explicit atoms here, so no
implicit-hydrogen count is added. -/
def Mol.totalValence (m : Mol) (a : Nat) : Int :=
  (((m.bonds.filter (fun b => decide (b.a1 = a ∨ b.a2 = a))).map
      (fun b => b.btype.contrib2)).sum / 2 : Nat)

/-- GetNeighbors: the atoms bonded to a, in bond-list order. -/
def Mol.neighbors (m : Mol) (a : Nat) : List Nat :=
  m.bonds.filterMap
    (fun b => if b.a1 = a then some b.a2 else if b.a2 = a then some b.a1 else none)

/-- SetBondType on the bond between atoms a and n. -/
def Mol.setBondType (m : Mol) (a n : Nat) (t : BondType) : Mol :=
  { m with
    bonds := m.bonds.map
      (fun b =>
        if (b.a1 = a ∧ b.a2 = n) ∨ (b.a1 = n ∧ b.a2 = a) then
          { b with btype := t }
        else b) }

/-- SetFormalCharge on atom a. -/
def Mol.setFormalCharge (m : Mol) (a : Nat) (c : Int) : Mol :=
  { m with charge := m.charge.set a c }

/-- The periodic-table collaborator: valence list per atomic number,
none for an unrecognized element. -/
abbrev PTable := Nat → Option (List Int)

/-- The concrete RDKit default valence lists for the elements used in the
examples; every other atomic number is unrecognized. -/
def rdkitTable : PTable
  | 1 => some [1]
  | 6 => some [4]
  | 7 => some [3]
  | 8 => some [2]
  | 9 => some [1]
  | 15 => some [3, 5]
  | 16 => some [2, 4, 6]
  | 17 => some [1]
  | _ => none

/-- The valence-deficit calculator (lines 44 to 46 of the source): the
list [ v - vtot for v in valences ] in the order of the periodic-table
lookup, propagating a lookup failure as none. -/
def atomElectrons (table : PTable) (m : Mol) (a : Nat) : Option (List Int) :=
  (table (m.getAtomicNum a)).map (fun vs => vs.map (fun v => v - m.totalValence a))

/-- Minimum of a list of integers, none when the list is empty: the
Python expression min(s, default=nan) with the nan sentinel as none. -/
def listMin : List Int → Option Int
  | [] => none
  | x :: xs =>
    match listMin xs with
    | none => some x
    | some y => some (min x y)

/-- common_electrons (line 64): the minimum of the intersection of the
two deficit lists, none for an empty intersection. -/
def commonElectrons (electrons naElectrons : List Int) : Option Int :=
  listMin (electrons.filter (fun x => decide (x ∈ naElectrons)))

/-- Observable events of the pass, in execution order. -/
inductive Event
  | readValence (a : Nat)
  | setCharge (a : Nat) (c : Int)
  | setBond (a n : Nat) (t : BondType)
  | updateCache (strict : Bool)
  | sanitize
deriving DecidableEq

/-- The two error classes of the routine. -/
inductive RepairError
  | lookupFailure (z : Nat)
  | sanitizeFailure
deriving DecidableEq

/-- The neighbor loop (lines 60 to 80 of the source) for one atom a with
precomputed deficit list, over the remaining neighbor list.  Returns the
resulting molecule (or the propagated lookup failure) and the event
trace. -/
def processNeighbors (table : PTable) (a : Nat) (electrons : List Int) :
    Mol → List Nat → Except RepairError Mol × List Event
  | m, [] => (Except.ok m, [])
  | m, na :: rest =>
    match table (m.getAtomicNum na) with
    | none =>
      (Except.error (RepairError.lookupFailure (m.getAtomicNum na)),
       [Event.readValence na])
    | some naValences =>
      match commonElectrons electrons (naValences.map (fun v => v - m.totalValence na)) with
      | none =>
        if rest.isEmpty then
          (Except.ok (m.setFormalCharge a (-electrons.headI)),
           [Event.readValence na, Event.setCharge a (-electrons.headI),
            Event.updateCache false])
        else
          ((processNeighbors table a electrons m rest).1,
           Event.readValence na :: (processNeighbors table a electrons m rest).2)
      | some c =>
        if c = 0 then
          ((processNeighbors table a electrons m rest).1,
           Event.readValence na :: (processNeighbors table a electrons m rest).2)
        else if c = 1 then
          (Except.ok (m.setBondType a na BondType.double),
           [Event.readValence na, Event.setBond a na BondType.double,
            Event.updateCache false])
        else if c = 2 then
          (Except.ok (m.setBondType a na BondType.triple),
           [Event.readValence na, Event.setBond a na BondType.triple,
            Event.updateCache false])
        else
          (Except.ok m, [Event.readValence na, Event.updateCache false])

/-- The per-atom body of the main loop (lines 44 to 80 of the source). -/
def visitAtom (table : PTable) (m : Mol) (a : Nat) :
    Except RepairError Mol × List Event :=
  match table (m.getAtomicNum a) with
  | none =>
    (Except.error (RepairError.lookupFailure (m.getAtomicNum a)),
     [Event.readValence a])
  | some valences =>
    let electrons := valences.map (fun v => v - m.totalValence a)
    if electrons.length = 1 ∧ electrons.headI < 0 then
      (Except.ok (m.setFormalCharge a (-electrons.headI)),
       [Event.readValence a, Event.setCharge a (-electrons.headI),
        Event.updateCache false])
    else
      ((processNeighbors table a electrons m (m.neighbors a)).1,
       Event.readValence a :: (processNeighbors table a electrons m (m.neighbors a)).2)

/-- The main loop over the atom indices, threading the molecule. -/
def runAtoms (table : PTable) : Mol → List Nat → Except RepairError Mol × List Event
  | m, [] => (Except.ok m, [])
  | m, a :: rest =>
    match visitAtom table m a with
    | (Except.error e, tr) => (Except.error e, tr)
    | (Except.ok m1, tr1) =>
      ((runAtoms table m1 rest).1, tr1 ++ (runAtoms table m1 rest).2)

/-- update_bonds_and_charges (lines 38 to 81 of the source): the full
pass followed by the single strict sanitization call. -/
def update_bonds_and_charges (table : PTable) (sanitizeOk : Mol → Bool) (m : Mol) :
    Except RepairError Mol × List Event :=
  match runAtoms table m (List.range m.atomicNum.length) with
  | (Except.error e, tr) => (Except.error e, tr)
  | (Except.ok m1, tr) =>
    if sanitizeOk m1 then (Except.ok m1, tr ++ [Event.sanitize])
    else (Except.error RepairError.sanitizeFailure, tr ++ [Event.sanitize])

/-- Events that mutate the molecule: charge writes and bond-type writes. -/
def isCorrective : Event → Bool
  | Event.setCharge _ _ => true
  | Event.setBond _ _ _ => true
  | _ => false

/-- Recognizes the sanitization event. -/
def isSanitizeEvent : Event → Bool
  | Event.sanitize => true
  | _ => false

/-- True when the trace begins with a permissive property-cache update. -/
def startsWithPermissiveRecompute : List Event → Bool
  | Event.updateCache false :: _ => true
  | _ => false

/-- Every mutation event in the trace is immediately followed by a
permissive property-cache update. -/
def noDanglingMut : List Event → Bool
  | [] => true
  | e :: rest =>
    (!isCorrective e || startsWithPermissiveRecompute rest) && noDanglingMut rest

/-- One admissible bond transition of the pass: endpoints unchanged and
the type either untouched or overwritten with double or triple. -/
def bondStep (b b1 : Bond) : Prop :=
  b1.a1 = b.a1 ∧ b1.a2 = b.a2 ∧
    (b1.btype = b.btype ∨ b1.btype = BondType.double ∨ b1.btype = BondType.triple)

/-- Pointwise admissible evolution of the bond list across the pass. -/
def bondsEvolve (m m1 : Mol) : Prop :=
  m1.bonds.length = m.bonds.length ∧
  ∀ i, i < m.bonds.length →
    bondStep (m.bonds.getD i ⟨0, 0, BondType.single⟩)
      (m1.bonds.getD i ⟨0, 0, BondType.single⟩)

/-- Hydrogen, oxygen, sulfur, carbon in a chain: H-O single, O=S double,
S#C triple.  The pass lowers the triple bond to a double bond. -/
def hosc : Mol :=
  { atomicNum := [1, 8, 16, 6],
    charge := [0, 0, 0, 0],
    bonds := [⟨0, 1, BondType.single⟩, ⟨1, 2, BondType.double⟩, ⟨2, 3, BondType.triple⟩] }

/-- Water: every atom's deficit list contains 0, so the pass is a no-op. -/
def h2o : Mol :=
  { atomicNum := [8, 1, 1],
    charge := [0, 0, 0],
    bonds := [⟨0, 1, BondType.single⟩, ⟨0, 2, BondType.single⟩] }

/-- Hydronium-like: an oxygen bonded to three hydrogens, over-bonded by
one, so it receives formal charge +1. -/
def h3o : Mol :=
  { atomicNum := [1, 1, 1, 8],
    charge := [0, 0, 0, 0],
    bonds := [⟨0, 3, BondType.single⟩, ⟨1, 3, BondType.single⟩, ⟨2, 3, BondType.single⟩] }

/-- Two carbons joined by a triple bond and nothing else. -/
def c2triple : Mol :=
  { atomicNum := [6, 6], charge := [0, 0], bonds := [⟨0, 1, BondType.triple⟩] }

/-- Two carbons joined by a double bond and nothing else. -/
def c2double : Mol :=
  { atomicNum := [6, 6], charge := [0, 0], bonds := [⟨0, 1, BondType.double⟩] }

/-- Two carbons joined by a single bond and nothing else. -/
def c2single : Mol :=
  { atomicNum := [6, 6], charge := [0, 0], bonds := [⟨0, 1, BondType.single⟩] }

/-- A single atom of an element the periodic table does not know. -/
def unknownAtom : Mol :=
  { atomicNum := [99], charge := [0], bonds := [] }

theorem listMin_eq_none {l : List Int} (h : listMin l = none) : l = [] := by
  cases l with
  | nil => rfl
  | cons x xs =>
    rw [listMin] at h
    cases hxs : listMin xs <;> rw [hxs] at h <;> simp at h

theorem listMin_mem : ∀ {l : List Int} {c : Int}, listMin l = some c → c ∈ l := by
  intro l
  induction l with
  | nil => intro c h; simp [listMin] at h
  | cons x xs ih =>
    intro c h
    rw [listMin] at h
    cases hxs : listMin xs with
    | none =>
      rw [hxs] at h
      simp at h
      simp [h]
    | some y =>
      rw [hxs] at h
      simp at h
      rcases min_choice x y with h1 | h1 <;> rw [h1] at h
      · simp [h]
      · exact List.mem_cons_of_mem x (h ▸ ih hxs)

theorem listMin_le : ∀ {l : List Int} {c : Int}, listMin l = some c →
    ∀ x ∈ l, c ≤ x := by
  intro l
  induction l with
  | nil => intro c h; simp [listMin] at h
  | cons y ys ih =>
    intro c h x hx
    rw [listMin] at h
    cases hys : listMin ys with
    | none =>
      rw [hys] at h
      simp at h
      have hnil := listMin_eq_none hys
      subst hnil
      simp at hx
      omega
    | some d =>
      rw [hys] at h
      simp at h
      rcases List.mem_cons.1 hx with h2 | h2
      · subst h2
        rw [← h]
        exact min_le_left _ _
      · calc c = min y d := h.symm
          _ ≤ d := min_le_right _ _
          _ ≤ x := ih hys x h2

theorem commonElectrons_spec {el nael : List Int} {c : Int}
    (h : commonElectrons el nael = some c) :
    c ∈ el ∧ c ∈ nael ∧ ∀ x ∈ el, x ∈ nael → c ≤ x := by
  rw [commonElectrons] at h
  have hmem := listMin_mem h
  rw [List.mem_filter] at hmem
  refine ⟨hmem.1, by simpa using hmem.2, ?_⟩
  intro x hx1 hx2
  exact listMin_le h x (List.mem_filter.2 ⟨hx1, by simpa using hx2⟩)

theorem commonElectrons_zero {el nael : List Int}
    (h1 : (0:Int) ∈ el) (h2 : (0:Int) ∈ nael) :
    ∃ c, commonElectrons el nael = some c ∧ c ≤ 0 := by
  have hf : (0:Int) ∈ el.filter (fun x => decide (x ∈ nael)) :=
    List.mem_filter.2 ⟨h1, by simpa using h2⟩
  rw [commonElectrons]
  cases hm : listMin (el.filter (fun x => decide (x ∈ nael))) with
  | none =>
    rw [listMin_eq_none hm] at hf
    simp at hf
  | some c => exact ⟨c, rfl, listMin_le hm 0 hf⟩

theorem startsWith_append {t1 t2 : List Event}
    (h : startsWithPermissiveRecompute t1 = true) :
    startsWithPermissiveRecompute (t1 ++ t2) = true := by
  cases t1 with
  | nil => simp [startsWithPermissiveRecompute] at h
  | cons e rest =>
    cases e with
    | updateCache b =>
      cases b with
      | false => rfl
      | true => simp [startsWithPermissiveRecompute] at h
    | readValence x => simp [startsWithPermissiveRecompute] at h
    | setCharge x c => simp [startsWithPermissiveRecompute] at h
    | setBond x n t => simp [startsWithPermissiveRecompute] at h
    | sanitize => simp [startsWithPermissiveRecompute] at h

theorem noDanglingMut_append {t1 t2 : List Event} (h1 : noDanglingMut t1 = true)
    (h2 : noDanglingMut t2 = true) : noDanglingMut (t1 ++ t2) = true := by
  induction t1 with
  | nil => simpa using h2
  | cons e rest ih =>
    rw [List.cons_append]
    rw [noDanglingMut] at h1 ⊢
    rw [Bool.and_eq_true] at h1 ⊢
    refine ⟨?_, ih h1.2⟩
    rw [Bool.or_eq_true] at h1 ⊢
    rcases h1.1 with h | h
    · exact Or.inl h
    · exact Or.inr (startsWith_append h)

theorem noDanglingMut_get {t : List Event} (h : noDanglingMut t = true) :
    ∀ i e, t.get? i = some e → isCorrective e = true →
      t.get? (i + 1) = some (Event.updateCache false) := by
  induction t with
  | nil => intro i e hi _; simp at hi
  | cons x rest ih =>
    rw [noDanglingMut, Bool.and_eq_true, Bool.or_eq_true] at h
    intro i e hi hc
    cases i with
    | zero =>
      simp at hi
      subst hi
      rcases h.1 with h1 | h1
      · rw [hc] at h1
        simp at h1
      · cases rest with
        | nil => simp [startsWithPermissiveRecompute] at h1
        | cons y ys =>
          cases y with
          | updateCache b =>
            cases b with
            | false => rfl
            | true => simp [startsWithPermissiveRecompute] at h1
          | readValence z => simp [startsWithPermissiveRecompute] at h1
          | setCharge z c => simp [startsWithPermissiveRecompute] at h1
          | setBond z n t => simp [startsWithPermissiveRecompute] at h1
          | sanitize => simp [startsWithPermissiveRecompute] at h1
    | succ n =>
      exact ih h.2 n e (by simpa using hi) hc

theorem getD_map_bonds (f : Bond → Bond) :
    ∀ (l : List Bond) (i : Nat), i < l.length →
      (l.map f).getD i ⟨0, 0, BondType.single⟩ = f (l.getD i ⟨0, 0, BondType.single⟩) := by
  intro l
  induction l with
  | nil => intro i hi; simp at hi
  | cons b bs ih =>
    intro i hi
    cases i with
    | zero => rfl
    | succ n =>
      simp only [List.map_cons, List.getD_cons_succ]
      exact ih n (by simpa using hi)

theorem bondsEvolve_refl (m : Mol) : bondsEvolve m m :=
  ⟨rfl, fun _ _ => ⟨rfl, rfl, Or.inl rfl⟩⟩

theorem bondsEvolve_trans {m1 m2 m3 : Mol} (h1 : bondsEvolve m1 m2)
    (h2 : bondsEvolve m2 m3) : bondsEvolve m1 m3 := by
  refine ⟨h2.1.trans h1.1, fun i hi => ?_⟩
  have hs1 := h1.2 i hi
  have hs2 := h2.2 i (by rw [h1.1]; exact hi)
  obtain ⟨e1, e2, e3⟩ := hs1
  obtain ⟨f1, f2, f3⟩ := hs2
  refine ⟨f1.trans e1, f2.trans e2, ?_⟩
  rcases f3 with f3 | f3 | f3
  · rw [f3]
    exact e3
  · exact Or.inr (Or.inl f3)
  · exact Or.inr (Or.inr f3)

theorem bondsEvolve_setFormalCharge (m : Mol) (a : Nat) (c : Int) :
    bondsEvolve m (m.setFormalCharge a c) :=
  ⟨rfl, fun _ _ => ⟨rfl, rfl, Or.inl rfl⟩⟩

theorem bondsEvolve_setBondType (m : Mol) (a n : Nat) {t : BondType}
    (ht : t = BondType.double ∨ t = BondType.triple) :
    bondsEvolve m (m.setBondType a n t) := by
  refine ⟨by simp [Mol.setBondType], fun i hi => ?_⟩
  have hmap := getD_map_bonds
    (fun b => if (b.a1 = a ∧ b.a2 = n) ∨ (b.a1 = n ∧ b.a2 = a) then
       { b with btype := t } else b) m.bonds i hi
  show bondStep (m.bonds.getD i ⟨0, 0, BondType.single⟩)
    ((m.bonds.map _).getD i ⟨0, 0, BondType.single⟩)
  rw [hmap]
  dsimp only
  by_cases hcond : ((m.bonds.getD i ⟨0, 0, BondType.single⟩).a1 = a ∧
      (m.bonds.getD i ⟨0, 0, BondType.single⟩).a2 = n) ∨
      ((m.bonds.getD i ⟨0, 0, BondType.single⟩).a1 = n ∧
      (m.bonds.getD i ⟨0, 0, BondType.single⟩).a2 = a)
  · rw [if_pos hcond]
    exact ⟨rfl, rfl, Or.inr ht⟩
  · rw [if_neg hcond]
    exact ⟨rfl, rfl, Or.inl rfl⟩

theorem pn_trace (table : PTable) (a : Nat) (electrons : List Int) :
    ∀ (ns : List Nat) (m : Mol),
      ((processNeighbors table a electrons m ns).2.countP isCorrective ≤ 1) ∧
      ((processNeighbors table a electrons m ns).2.countP isSanitizeEvent = 0) ∧
      (∀ b, Event.updateCache b ∈ (processNeighbors table a electrons m ns).2 → b = false) ∧
      (∀ x c, Event.setCharge x c ∈ (processNeighbors table a electrons m ns).2 → x = a) ∧
      (∀ x n t, Event.setBond x n t ∈ (processNeighbors table a electrons m ns).2 → x = a) ∧
      (noDanglingMut (processNeighbors table a electrons m ns).2 = true) := by
  intro ns
  induction ns with
  | nil =>
    intro m
    refine ⟨?_, ?_, ?_, ?_, ?_, ?_⟩ <;> simp [processNeighbors, noDanglingMut]
  | cons na rest ih =>
    intro m
    cases hlk : table (m.getAtomicNum na) with
    | none =>
      simp only [processNeighbors, hlk]
      refine ⟨?_, ?_, ?_, ?_, ?_, ?_⟩ <;>
        simp [List.countP_cons, isCorrective, isSanitizeEvent, noDanglingMut,
          startsWithPermissiveRecompute]
    | some vs =>
      cases hc : commonElectrons electrons (vs.map (fun v => v - m.totalValence na)) with
      | none =>
        by_cases hre : rest.isEmpty
        · simp only [processNeighbors, hlk, hc, hre, if_true]
          refine ⟨?_, ?_, ?_, ?_, ?_, ?_⟩ <;>
            simp [List.countP_cons, isCorrective, isSanitizeEvent, noDanglingMut,
              startsWithPermissiveRecompute]
        · obtain ⟨i1, i2, i3, i4, i5, i6⟩ := ih m
          simp only [processNeighbors, hlk, hc, hre, if_false]
          refine ⟨?_, ?_, ?_, ?_, ?_, ?_⟩
          · simpa [List.countP_cons, isCorrective] using i1
          · simpa [List.countP_cons, isSanitizeEvent] using i2
          · intro b hb
            rcases List.mem_cons.1 hb with h | h
            · exact absurd h (by simp)
            · exact i3 b h
          · intro x c hx
            rcases List.mem_cons.1 hx with h | h
            · exact absurd h (by simp)
            · exact i4 x c h
          · intro x n t hx
            rcases List.mem_cons.1 hx with h | h
            · exact absurd h (by simp)
            · exact i5 x n t h
          · simp [noDanglingMut, isCorrective, i6]
      | some c =>
        by_cases hc0 : c = 0
        · obtain ⟨i1, i2, i3, i4, i5, i6⟩ := ih m
          simp only [processNeighbors, hlk, hc, hc0, if_pos]
          refine ⟨?_, ?_, ?_, ?_, ?_, ?_⟩
          · simpa [List.countP_cons, isCorrective] using i1
          · simpa [List.countP_cons, isSanitizeEvent] using i2
          · intro b hb
            rcases List.mem_cons.1 hb with h | h
            · exact absurd h (by simp)
            · exact i3 b h
          · intro x c hx
            rcases List.mem_cons.1 hx with h | h
            · exact absurd h (by simp)
            · exact i4 x c h
          · intro x n t hx
            rcases List.mem_cons.1 hx with h | h
            · exact absurd h (by simp)
            · exact i5 x n t h
          · simp [noDanglingMut, isCorrective, i6]
        · by_cases hc1 : c = 1
          · simp only [processNeighbors, hlk, hc, hc0, hc1, if_false, if_pos]
            refine ⟨?_, ?_, ?_, ?_, ?_, ?_⟩ <;>
              simp [List.countP_cons, isCorrective, isSanitizeEvent, noDanglingMut,
                startsWithPermissiveRecompute, hc0] <;>
              (intro x n t hx h1 h2; exact hx)
          · by_cases hc2 : c = 2
            · simp only [processNeighbors, hlk, hc, hc0, hc1, hc2, if_false, if_pos]
              refine ⟨?_, ?_, ?_, ?_, ?_, ?_⟩ <;>
                simp [List.countP_cons, isCorrective, isSanitizeEvent, noDanglingMut,
                  startsWithPermissiveRecompute, hc0, hc1] <;>
                (intro x n t hx h1 h2; exact hx)
            · simp only [processNeighbors, hlk, hc, hc0, hc1, hc2, if_false]
              refine ⟨?_, ?_, ?_, ?_, ?_, ?_⟩ <;>
                simp [List.countP_cons, isCorrective, isSanitizeEvent, noDanglingMut,
                  startsWithPermissiveRecompute, hc0, hc1, hc2]

theorem visit_trace (table : PTable) (m : Mol) (a : Nat) :
    ((visitAtom table m a).2.countP isCorrective ≤ 1) ∧
    ((visitAtom table m a).2.countP isSanitizeEvent = 0) ∧
    (∀ b, Event.updateCache b ∈ (visitAtom table m a).2 → b = false) ∧
    (∀ x c, Event.setCharge x c ∈ (visitAtom table m a).2 → x = a) ∧
    (∀ x n t, Event.setBond x n t ∈ (visitAtom table m a).2 → x = a) ∧
    (noDanglingMut (visitAtom table m a).2 = true) := by
  cases hlk : table (m.getAtomicNum a) with
  | none =>
    simp only [visitAtom, hlk]
    refine ⟨?_, ?_, ?_, ?_, ?_, ?_⟩ <;>
      simp [List.countP_cons, isCorrective, isSanitizeEvent, noDanglingMut,
        startsWithPermissiveRecompute]
  | some vs =>
    by_cases hcond : (vs.map (fun v => v - m.totalValence a)).length = 1 ∧
        (vs.map (fun v => v - m.totalValence a)).headI < 0
    · simp only [visitAtom, hlk, if_pos hcond]
      refine ⟨?_, ?_, ?_, ?_, ?_, ?_⟩ <;>
        simp [List.countP_cons, isCorrective, isSanitizeEvent, noDanglingMut,
          startsWithPermissiveRecompute]
    · obtain ⟨i1, i2, i3, i4, i5, i6⟩ :=
        pn_trace table a (vs.map (fun v => v - m.totalValence a)) (m.neighbors a) m
      simp only [visitAtom, hlk, if_neg hcond]
      refine ⟨?_, ?_, ?_, ?_, ?_, ?_⟩
      · simpa [List.countP_cons, isCorrective] using i1
      · simpa [List.countP_cons, isSanitizeEvent] using i2
      · intro b hb
        rcases List.mem_cons.1 hb with h | h
        · exact absurd h (by simp)
        · exact i3 b h
      · intro x c hx
        rcases List.mem_cons.1 hx with h | h
        · exact absurd h (by simp)
        · exact i4 x c h
      · intro x n t hx
        rcases List.mem_cons.1 hx with h | h
        · exact absurd h (by simp)
        · exact i5 x n t h
      · simp [noDanglingMut, isCorrective, i6]

theorem run_trace (table : PTable) :
    ∀ (atoms : List Nat) (m : Mol),
      ((runAtoms table m atoms).2.countP isSanitizeEvent = 0) ∧
      (∀ b, Event.updateCache b ∈ (runAtoms table m atoms).2 → b = false) ∧
      (noDanglingMut (runAtoms table m atoms).2 = true) := by
  intro atoms
  induction atoms with
  | nil =>
    intro m
    refine ⟨?_, ?_, ?_⟩ <;> simp [runAtoms, noDanglingMut]
  | cons a rest ih =>
    intro m
    obtain ⟨v1, v2, v3, v4, v5, v6⟩ := visit_trace table m a
    cases hva : visitAtom table m a with
    | mk r tr =>
      rw [hva] at v2 v3 v6
      cases r with
      | error e =>
        simp only [runAtoms, hva]
        exact ⟨v2, v3, v6⟩
      | ok m1 =>
        obtain ⟨j1, j2, j3⟩ := ih m1
        simp only [runAtoms, hva]
        refine ⟨?_, ?_, ?_⟩
        · simp [List.countP_append, v2, j1]
        · intro b hb
          rcases List.mem_append.1 hb with h | h
          · exact v3 b h
          · exact j2 b h
        · exact noDanglingMut_append v6 j3

theorem update_trace_noDangling (table : PTable) (san : Mol → Bool) (m : Mol) :
    noDanglingMut (update_bonds_and_charges table san m).2 = true := by
  obtain ⟨r1, r2, r3⟩ := run_trace table (List.range m.atomicNum.length) m
  cases hra : runAtoms table m (List.range m.atomicNum.length) with
  | mk r tr =>
    rw [hra] at r3
    cases r with
    | error e =>
      simp only [update_bonds_and_charges, hra]
      exact r3
    | ok m1 =>
      have hs : noDanglingMut [Event.sanitize] = true := rfl
      by_cases hsan : san m1 = true
      · simp only [update_bonds_and_charges, hra, hsan, if_true]
        exact noDanglingMut_append r3 hs
      · simp only [update_bonds_and_charges, hra, if_neg hsan]
        exact noDanglingMut_append r3 hs

theorem deficitZero_elim {table : PTable} {m : Mol} {x : Nat}
    (h : (0:Int) ∈ (atomElectrons table m x).getD []) :
    ∃ vs, table (m.getAtomicNum x) = some vs ∧
      (0:Int) ∈ vs.map (fun v => v - m.totalValence x) := by
  rw [atomElectrons] at h
  cases hl : table (m.getAtomicNum x) with
  | none =>
    rw [hl] at h
    simp at h
  | some vs =>
    rw [hl] at h
    simp only [Option.map_some', Option.getD_some] at h
    exact ⟨vs, rfl, h⟩

theorem neighbors_lt {m : Mol} {a x : Nat}
    (hwf : ∀ b ∈ m.bonds, b.a1 < m.atomicNum.length ∧ b.a2 < m.atomicNum.length)
    (hx : x ∈ m.neighbors a) : x < m.atomicNum.length := by
  rw [Mol.neighbors] at hx
  rcases List.mem_filterMap.1 hx with ⟨b, hb, hf⟩
  by_cases h1 : b.a1 = a
  · rw [if_pos h1] at hf
    have h2 := Option.some.inj hf
    subst h2
    exact (hwf b hb).2
  · rw [if_neg h1] at hf
    by_cases h2 : b.a2 = a
    · rw [if_pos h2] at hf
      have h3 := Option.some.inj hf
      subst h3
      exact (hwf b hb).1
    · rw [if_neg h2] at hf
      exact absurd hf (by simp)

theorem processNeighbors_stable (table : PTable) (a : Nat) (electrons : List Int)
    (h0 : (0:Int) ∈ electrons) (m : Mol) :
    ∀ ns : List Nat,
      (∀ na ∈ ns, ∃ vs, table (m.getAtomicNum na) = some vs ∧
        (0:Int) ∈ vs.map (fun v => v - m.totalValence na)) →
      (processNeighbors table a electrons m ns).1 = Except.ok m := by
  intro ns
  induction ns with
  | nil => intro _; rfl
  | cons na rest ih =>
    intro hns
    obtain ⟨vs, hlk, h0na⟩ := hns na (List.mem_cons_self na rest)
    have hrest := fun x hx => hns x (List.mem_cons_of_mem na hx)
    obtain ⟨c, hc, hcle⟩ := commonElectrons_zero h0 h0na
    by_cases hc0 : c = 0
    · simp only [processNeighbors, hlk, hc, hc0, if_pos]
      exact ih hrest
    · have h1 : ¬ c = 1 := by omega
      have h2 : ¬ c = 2 := by omega
      simp only [processNeighbors, hlk, hc, hc0, h1, h2, if_false]

theorem visitAtom_stable (table : PTable) (m : Mol) (a : Nat)
    (hwf : ∀ b ∈ m.bonds, b.a1 < m.atomicNum.length ∧ b.a2 < m.atomicNum.length)
    (hok : ∀ x, x < m.atomicNum.length → (0:Int) ∈ (atomElectrons table m x).getD [])
    (ha : a < m.atomicNum.length) :
    (visitAtom table m a).1 = Except.ok m := by
  obtain ⟨vs, hlk, h0⟩ := deficitZero_elim (hok a ha)
  have hcond : ¬ ((vs.map (fun v => v - m.totalValence a)).length = 1 ∧
      (vs.map (fun v => v - m.totalValence a)).headI < 0) := by
    rintro ⟨hlen, hneg⟩
    rcases List.length_eq_one.1 hlen with ⟨e, he⟩
    rw [he] at h0 hneg
    simp at h0
    rw [h0] at hneg
    exact absurd hneg (by simp)
  simp only [visitAtom, hlk, if_neg hcond]
  exact processNeighbors_stable table a (vs.map (fun v => v - m.totalValence a)) h0 m
    (m.neighbors a)
    (fun na hna => deficitZero_elim (hok na (neighbors_lt hwf hna)))

theorem runAtoms_stable (table : PTable) (m : Mol)
    (hwf : ∀ b ∈ m.bonds, b.a1 < m.atomicNum.length ∧ b.a2 < m.atomicNum.length)
    (hok : ∀ x, x < m.atomicNum.length → (0:Int) ∈ (atomElectrons table m x).getD []) :
    ∀ atoms : List Nat, (∀ x ∈ atoms, x < m.atomicNum.length) →
      (runAtoms table m atoms).1 = Except.ok m := by
  intro atoms
  induction atoms with
  | nil => intro _; rfl
  | cons a rest ih =>
    intro hall
    have hv := visitAtom_stable table m a hwf hok (hall a (List.mem_cons_self a rest))
    cases hva : visitAtom table m a with
    | mk r tr =>
      rw [hva] at hv
      simp at hv
      subst hv
      simp only [runAtoms, hva]
      exact ih (fun x hx => hall x (List.mem_cons_of_mem a hx))

theorem pn_evolve (table : PTable) (a : Nat) (electrons : List Int) :
    ∀ (ns : List Nat) (m m1 : Mol),
      (processNeighbors table a electrons m ns).1 = Except.ok m1 → bondsEvolve m m1 := by
  intro ns
  induction ns with
  | nil =>
    intro m m1 h
    simp only [processNeighbors] at h
    rw [Except.ok.injEq] at h
    subst h
    exact bondsEvolve_refl m
  | cons na rest ih =>
    intro m m1 h
    cases hlk : table (m.getAtomicNum na) with
    | none =>
      simp only [processNeighbors, hlk] at h
      exact absurd h (by simp)
    | some vs =>
      cases hc : commonElectrons electrons (vs.map (fun v => v - m.totalValence na)) with
      | none =>
        by_cases hre : rest.isEmpty
        · simp only [processNeighbors, hlk, hc, hre, if_true] at h
          rw [Except.ok.injEq] at h
          subst h
          exact bondsEvolve_setFormalCharge m a (-electrons.headI)
        · simp only [processNeighbors, hlk, hc, hre, if_false] at h
          exact ih m m1 h
      | some c =>
        by_cases hc0 : c = 0
        · simp only [processNeighbors, hlk, hc, hc0, if_pos] at h
          exact ih m m1 h
        · by_cases hc1 : c = 1
          · subst hc1
            simp only [processNeighbors, hlk, hc] at h
            norm_num at h
            subst h
            exact bondsEvolve_setBondType m a na (Or.inl rfl)
          · by_cases hc2 : c = 2
            · subst hc2
              simp only [processNeighbors, hlk, hc] at h
              norm_num at h
              subst h
              exact bondsEvolve_setBondType m a na (Or.inr rfl)
            · simp only [processNeighbors, hlk, hc, hc0, hc1, hc2, if_false] at h
              rw [Except.ok.injEq] at h
              subst h
              exact bondsEvolve_refl m

theorem visit_evolve (table : PTable) (m m1 : Mol) (a : Nat)
    (h : (visitAtom table m a).1 = Except.ok m1) : bondsEvolve m m1 := by
  cases hlk : table (m.getAtomicNum a) with
  | none =>
    simp only [visitAtom, hlk] at h
    exact absurd h (by simp)
  | some vs =>
    by_cases hcond : (vs.map (fun v => v - m.totalValence a)).length = 1 ∧
        (vs.map (fun v => v - m.totalValence a)).headI < 0
    · simp only [visitAtom, hlk, if_pos hcond] at h
      rw [Except.ok.injEq] at h
      subst h
      exact bondsEvolve_setFormalCharge m a _
    · simp only [visitAtom, hlk, if_neg hcond] at h
      exact pn_evolve table a _ (m.neighbors a) m m1 h

theorem run_evolve (table : PTable) :
    ∀ (atoms : List Nat) (m m1 : Mol),
      (runAtoms table m atoms).1 = Except.ok m1 → bondsEvolve m m1 := by
  intro atoms
  induction atoms with
  | nil =>
    intro m m1 h
    simp only [runAtoms] at h
    rw [Except.ok.injEq] at h
    subst h
    exact bondsEvolve_refl m
  | cons a rest ih =>
    intro m m1 h
    cases hva : visitAtom table m a with
    | mk r tr =>
      cases r with
      | error e =>
        simp only [runAtoms, hva] at h
        exact absurd h (by simp)
      | ok m2 =>
        simp only [runAtoms, hva] at h
        exact bondsEvolve_trans (visit_evolve table m m2 a (by rw [hva])) (ih m2 m1 h)

theorem update_evolve (table : PTable) (san : Mol → Bool) (m m1 : Mol)
    (h : (update_bonds_and_charges table san m).1 = Except.ok m1) : bondsEvolve m m1 := by
  cases hra : runAtoms table m (List.range m.atomicNum.length) with
  | mk r tr =>
    cases r with
    | error e =>
      simp only [update_bonds_and_charges, hra] at h
      exact absurd h (by simp)
    | ok m2 =>
      by_cases hsan : san m2 = true
      · simp only [update_bonds_and_charges, hra, hsan, if_true] at h
        rw [Except.ok.injEq] at h
        subst h
        exact run_evolve table (List.range m.atomicNum.length) m m2 (by rw [hra])
      · simp only [update_bonds_and_charges, hra, if_neg hsan] at h
        exact absurd h (by simp)

/-- Claim C1: in the multi-option branch, when a neighbor yields a shared
deficit value of 1 the bond to that neighbor is set to double, and when
it yields 2 the bond is set to triple; in both cases a permissive
property-cache recompute follows, the neighbor scan stops (the remaining
neighbors do not influence the result nor appear in the trace), and
neither atom receives a formal charge (the charge list is unchanged). -/
theorem c1_shared_deficit_upgrades_bond (table : PTable) (m : Mol) (a : Nat)
    (electrons : List Int) (na : Nat) (rest : List Nat) (naValences : List Int)
    (hlk : table (m.getAtomicNum na) = some naValences) :
    (commonElectrons electrons (naValences.map (fun v => v - m.totalValence na)) = some 1 →
      processNeighbors table a electrons m (na :: rest) =
        (Except.ok (m.setBondType a na BondType.double),
         [Event.readValence na, Event.setBond a na BondType.double,
          Event.updateCache false]) ∧
      (m.setBondType a na BondType.double).charge = m.charge) ∧
    (commonElectrons electrons (naValences.map (fun v => v - m.totalValence na)) = some 2 →
      processNeighbors table a electrons m (na :: rest) =
        (Except.ok (m.setBondType a na BondType.triple),
         [Event.readValence na, Event.setBond a na BondType.triple,
          Event.updateCache false]) ∧
      (m.setBondType a na BondType.triple).charge = m.charge) := by
  constructor
  · intro hc
    refine ⟨?_, rfl⟩
    simp only [processNeighbors, hlk, hc]
    norm_num
  · intro hc
    refine ⟨?_, rfl⟩
    simp only [processNeighbors, hlk, hc]
    norm_num

theorem c1_shared_deficit_upgrades_bond_witness :
    (processNeighbors rdkitTable 0 [1] c2triple [1] =
       (Except.ok (c2triple.setBondType 0 1 BondType.double),
        [Event.readValence 1, Event.setBond 0 1 BondType.double,
         Event.updateCache false]) ∧
     (c2triple.setBondType 0 1 BondType.double).charge = c2triple.charge) ∧
    (processNeighbors rdkitTable 0 [2] c2double [1] =
       (Except.ok (c2double.setBondType 0 1 BondType.triple),
        [Event.readValence 1, Event.setBond 0 1 BondType.triple,
         Event.updateCache false]) ∧
     (c2double.setBondType 0 1 BondType.triple).charge = c2double.charge) :=
  ⟨(c1_shared_deficit_upgrades_bond rdkitTable c2triple 0 [1] 1 [] [4] rfl).1 (by decide),
   (c1_shared_deficit_upgrades_bond rdkitTable c2double 0 [2] 1 [] [4] rfl).2 (by decide)⟩

/-- Claim C2: when the element has exactly one valid valence V and the
observed total valence T exceeds it, the visit assigns formal charge
T - V to the atom, performs a permissive recompute, does not scan any
neighbor (the trace holds no neighbor valence read), and leaves the bond
list untouched. -/
theorem c2_single_option_positive_charge (table : PTable) (m : Mol) (a : Nat) (V : Int)
    (hlk : table (m.getAtomicNum a) = some [V]) (hneg : V - m.totalValence a < 0) :
    visitAtom table m a =
      (Except.ok (m.setFormalCharge a (m.totalValence a - V)),
       [Event.readValence a, Event.setCharge a (m.totalValence a - V),
        Event.updateCache false]) ∧
    (m.setFormalCharge a (m.totalValence a - V)).bonds = m.bonds := by
  refine ⟨?_, rfl⟩
  have hcond : ([V].map (fun v => v - m.totalValence a)).length = 1 ∧
      ([V].map (fun v => v - m.totalValence a)).headI < 0 := by
    refine ⟨by simp, by simpa using hneg⟩
  have hval : -(V - m.totalValence a) = m.totalValence a - V := by ring
  simp only [visitAtom, hlk, if_pos hcond]
  simp [hval]

theorem c2_single_option_positive_charge_witness :
    visitAtom rdkitTable h3o 3 =
      (Except.ok (h3o.setFormalCharge 3 (h3o.totalValence 3 - 2)),
       [Event.readValence 3, Event.setCharge 3 (h3o.totalValence 3 - 2),
        Event.updateCache false]) ∧
    (h3o.setFormalCharge 3 (h3o.totalValence 3 - 2)).bonds = h3o.bonds :=
  c2_single_option_positive_charge rdkitTable h3o 3 2 rfl (by decide)

/-- Claim C3: in the multi-option branch, an empty deficit intersection
with the last neighbor makes the pass assign formal charge equal to the
negation of the first deficit entry, followed by a permissive recompute
and with the bond list untouched; an empty intersection with a non-last
neighbor performs no action and iteration continues with the remaining
neighbors. -/
theorem c3_empty_intersection_fallback (table : PTable) (m : Mol) (a : Nat)
    (electrons : List Int) (na : Nat) (rest : List Nat) (naValences : List Int)
    (hlk : table (m.getAtomicNum na) = some naValences)
    (hempty : commonElectrons electrons
      (naValences.map (fun v => v - m.totalValence na)) = none) :
    (processNeighbors table a electrons m [na] =
       (Except.ok (m.setFormalCharge a (-electrons.headI)),
        [Event.readValence na, Event.setCharge a (-electrons.headI),
         Event.updateCache false]) ∧
     (m.setFormalCharge a (-electrons.headI)).bonds = m.bonds) ∧
    (rest ≠ [] →
      processNeighbors table a electrons m (na :: rest) =
        ((processNeighbors table a electrons m rest).1,
         Event.readValence na :: (processNeighbors table a electrons m rest).2)) := by
  constructor
  · refine ⟨?_, rfl⟩
    simp only [processNeighbors, hlk, hempty]
    simp
  · intro hrest
    have hre : rest.isEmpty = false := by
      cases rest with
      | nil => exact absurd rfl hrest
      | cons x xs => rfl
    simp only [processNeighbors, hlk, hempty, hre]
    simp

theorem c3_empty_intersection_fallback_witness :
    (processNeighbors rdkitTable 0 [0] h3o [3] =
       (Except.ok (h3o.setFormalCharge 0 (-([(0:Int)]).headI)),
        [Event.readValence 3, Event.setCharge 0 (-([(0:Int)]).headI),
         Event.updateCache false]) ∧
     (h3o.setFormalCharge 0 (-([(0:Int)]).headI)).bonds = h3o.bonds) ∧
    (processNeighbors rdkitTable 0 [0] h3o [3, 3] =
       ((processNeighbors rdkitTable 0 [0] h3o [3]).1,
        Event.readValence 3 :: (processNeighbors rdkitTable 0 [0] h3o [3]).2)) :=
  ⟨(c3_empty_intersection_fallback rdkitTable h3o 0 [0] 3 [3] [2] rfl (by decide)).1,
   (c3_empty_intersection_fallback rdkitTable h3o 0 [0] 3 [3] [2] rfl (by decide)).2
     (by decide)⟩

/-- Claim C5: the valence-deficit calculation returns, for every valid
valence of the looked-up element and in the lookup order, that valence
minus the observed total valence; it builds a fresh list without
touching the molecule, and its only failure mode is propagating the
periodic-table lookup failure. -/
theorem c5_deficit_calculator (table : PTable) (m : Mol) (a : Nat) :
    (∀ vs, table (m.getAtomicNum a) = some vs →
      atomElectrons table m a = some (vs.map (fun v => v - m.totalValence a))) ∧
    (table (m.getAtomicNum a) = none → atomElectrons table m a = none) := by
  constructor
  · intro vs h
    rw [atomElectrons, h]
    rfl
  · intro h
    rw [atomElectrons, h]
    rfl

theorem c5_deficit_calculator_witness :
    (atomElectrons rdkitTable h3o 3 =
      some ([2].map (fun v => v - h3o.totalValence 3))) ∧
    (atomElectrons rdkitTable unknownAtom 0 = none) :=
  ⟨(c5_deficit_calculator rdkitTable h3o 3).1 [2] rfl,
   (c5_deficit_calculator rdkitTable unknownAtom 0).2 rfl⟩

/-- Claim C6: one atom visit performs at most one corrective action: at
most one charge write or bond write appears in its trace (so never
both), every charge write targets the visited atom, and every bond write
is anchored at the visited atom. -/
theorem c6_single_corrective_action (table : PTable) (m : Mol) (a : Nat) :
    ((visitAtom table m a).2.countP isCorrective ≤ 1) ∧
    (∀ x c, Event.setCharge x c ∈ (visitAtom table m a).2 → x = a) ∧
    (∀ x n t, Event.setBond x n t ∈ (visitAtom table m a).2 → x = a) := by
  obtain ⟨v1, _, _, v4, v5, _⟩ := visit_trace table m a
  exact ⟨v1, v4, v5⟩

theorem c6_single_corrective_action_witness :
    ((visitAtom rdkitTable h3o 3).2.countP isCorrective ≤ 1) ∧ 3 = 3 :=
  ⟨(c6_single_corrective_action rdkitTable h3o 3).1,
   (c6_single_corrective_action rdkitTable h3o 3).2.1 3 1 (by decide)⟩

/-- Claim C7: the per-atom loop itself never sanitizes; whenever the
loop completes, the full trace is the loop trace followed by exactly one
final sanitization event (whether or not the strict check then passes);
every property-cache update in the whole run is permissive; and the only
error classes of the routine are the valence-lookup failure and the
strict-sanitization failure. -/
theorem c7_sanitize_once_at_end (table : PTable) (san : Mol → Bool) (m : Mol) :
    ((runAtoms table m (List.range m.atomicNum.length)).2.countP isSanitizeEvent = 0) ∧
    (∀ b, Event.updateCache b ∈ (update_bonds_and_charges table san m).2 → b = false) ∧
    (∀ m1, (runAtoms table m (List.range m.atomicNum.length)).1 = Except.ok m1 →
      (update_bonds_and_charges table san m).2 =
        (runAtoms table m (List.range m.atomicNum.length)).2 ++ [Event.sanitize] ∧
      (update_bonds_and_charges table san m).2.countP isSanitizeEvent = 1) ∧
    (∀ e, (update_bonds_and_charges table san m).1 = Except.error e →
      (∃ z, e = RepairError.lookupFailure z) ∨ e = RepairError.sanitizeFailure) := by
  obtain ⟨r1, r2, r3⟩ := run_trace table (List.range m.atomicNum.length) m
  refine ⟨r1, ?_, ?_, ?_⟩
  · cases hra : runAtoms table m (List.range m.atomicNum.length) with
    | mk r tr =>
      rw [hra] at r2
      cases r with
      | error e =>
        simp only [update_bonds_and_charges, hra]
        exact r2
      | ok m1 =>
        by_cases hsan : san m1 = true
        · simp only [update_bonds_and_charges, hra, hsan, if_true]
          intro b hb
          rcases List.mem_append.1 hb with h | h
          · exact r2 b h
          · exact absurd h (by simp)
        · simp only [update_bonds_and_charges, hra, if_neg hsan]
          intro b hb
          rcases List.mem_append.1 hb with h | h
          · exact r2 b h
          · exact absurd h (by simp)
  · intro m1 h1
    cases hra : runAtoms table m (List.range m.atomicNum.length) with
    | mk r tr =>
      rw [hra] at h1 r1
      simp only at h1 r1
      subst h1
      by_cases hsan : san m1 = true
      · constructor
        · simp only [update_bonds_and_charges, hra, hsan, if_true]
        · simp only [update_bonds_and_charges, hra, hsan, if_true]
          rw [List.countP_append, r1]
          rfl
      · constructor
        · simp only [update_bonds_and_charges, hra, if_neg hsan]
        · simp only [update_bonds_and_charges, hra, if_neg hsan]
          rw [List.countP_append, r1]
          rfl
  · intro e _
    cases e with
    | lookupFailure z => exact Or.inl ⟨z, rfl⟩
    | sanitizeFailure => exact Or.inr rfl

theorem c7_sanitize_once_at_end_witness :
    ((update_bonds_and_charges rdkitTable (fun _ => true) h3o).2 =
       (runAtoms rdkitTable h3o (List.range h3o.atomicNum.length)).2 ++
         [Event.sanitize] ∧
     (update_bonds_and_charges rdkitTable (fun _ => true) h3o).2.countP
       isSanitizeEvent = 1) ∧
    ((∃ z, RepairError.sanitizeFailure = RepairError.lookupFailure z) ∨
      RepairError.sanitizeFailure = RepairError.sanitizeFailure) ∧
    false = false :=
  ⟨(c7_sanitize_once_at_end rdkitTable (fun _ => true) h3o).2.2.1
     (h3o.setFormalCharge 0 0 |>.setFormalCharge 1 0 |>.setFormalCharge 2 0
       |>.setFormalCharge 3 1) rfl,
   (c7_sanitize_once_at_end rdkitTable (fun _ => false) h3o).2.2.2
     RepairError.sanitizeFailure rfl,
   (c7_sanitize_once_at_end rdkitTable (fun _ => true) h3o).2.1 false (by decide)⟩

/-- Claim C8: in the full event trace of the pass, every mutation event
(charge write or bond write) is immediately followed by a permissive
property-cache update, so no valence read can occur between a mutation
and its recompute. -/
theorem c8_mutation_then_recompute (table : PTable) (san : Mol → Bool) (m : Mol) :
    ∀ i e, (update_bonds_and_charges table san m).2.get? i = some e →
      isCorrective e = true →
      (update_bonds_and_charges table san m).2.get? (i + 1) =
        some (Event.updateCache false) :=
  noDanglingMut_get (update_trace_noDangling table san m)

theorem c8_mutation_then_recompute_witness :
    (update_bonds_and_charges rdkitTable (fun _ => true) h3o).2.get? 3 =
      some (Event.updateCache false) :=
  c8_mutation_then_recompute rdkitTable (fun _ => true) h3o 2 (Event.setCharge 0 0)
    (by decide) (by decide)

/-- Claim C9: idempotence on a repaired molecule: when every atom index
has a valence lookup that succeeds and a deficit list containing 0, and
the strict check accepts the molecule, the pass returns the molecule
completely unchanged (no bond order and no formal charge differs). -/
theorem c9_repaired_molecule_unchanged (table : PTable) (san : Mol → Bool) (m : Mol)
    (hwf : ∀ b ∈ m.bonds, b.a1 < m.atomicNum.length ∧ b.a2 < m.atomicNum.length)
    (hok : ∀ x, x < m.atomicNum.length → (0:Int) ∈ (atomElectrons table m x).getD [])
    (hsan : san m = true) :
    (update_bonds_and_charges table san m).1 = Except.ok m := by
  have hr := runAtoms_stable table m hwf hok (List.range m.atomicNum.length)
    (fun x hx => List.mem_range.1 hx)
  cases hra : runAtoms table m (List.range m.atomicNum.length) with
  | mk r tr =>
    rw [hra] at hr
    simp only at hr
    subst hr
    simp only [update_bonds_and_charges, hra, hsan, if_true]

theorem c9_repaired_molecule_unchanged_witness :
    (update_bonds_and_charges rdkitTable (fun _ => true) h2o).1 = Except.ok h2o :=
  c9_repaired_molecule_unchanged rdkitTable (fun _ => true) h2o (by decide) (by decide) rfl

/-- Claim C10: the shared value common for an atom and a neighbor is the
minimum of the intersection of the two deficit lists (it is a shared
element below every shared element); and when it is neither 0, 1 nor 2
(negative, or at least 3) the neighbor scan stops at that neighbor with
no bond change and no charge assignment, only a permissive recompute. -/
theorem c10_common_min_and_silent_stop (table : PTable) (m : Mol) (a : Nat)
    (electrons : List Int) (na : Nat) (rest : List Nat) (naValences : List Int) (c : Int)
    (hlk : table (m.getAtomicNum na) = some naValences)
    (hc : commonElectrons electrons
      (naValences.map (fun v => v - m.totalValence na)) = some c) :
    (c ∈ electrons ∧ c ∈ naValences.map (fun v => v - m.totalValence na) ∧
      ∀ x ∈ electrons, x ∈ naValences.map (fun v => v - m.totalValence na) → c ≤ x) ∧
    (c ≠ 0 → c ≠ 1 → c ≠ 2 →
      processNeighbors table a electrons m (na :: rest) =
        (Except.ok m, [Event.readValence na, Event.updateCache false])) := by
  refine ⟨commonElectrons_spec hc, ?_⟩
  intro h0 h1 h2
  simp only [processNeighbors, hlk, hc, h0, h1, h2, if_false]

theorem c10_common_min_and_silent_stop_witness :
    ((3:Int) ∈ [(3:Int)] ∧
      (3:Int) ∈ [(4:Int)].map (fun v => v - c2single.totalValence 1) ∧
      ∀ x ∈ [(3:Int)], x ∈ [(4:Int)].map (fun v => v - c2single.totalValence 1) →
        (3:Int) ≤ x) ∧
    processNeighbors rdkitTable 0 [3] c2single [1] =
      (Except.ok c2single, [Event.readValence 1, Event.updateCache false]) :=
  ⟨(c10_common_min_and_silent_stop rdkitTable c2single 0 [3] 1 [] [4] 3 rfl
      (by decide)).1,
   (c10_common_min_and_silent_stop rdkitTable c2single 0 [3] 1 [] [4] 3 rfl
      (by decide)).2 (by decide) (by decide) (by decide)⟩

/-- Claim C4 counterexample: the pass can lower a bond order.  In the
chain H-O, O=S, S#C the sulfur-carbon triple bond ends the pass as a
double bond: the carbon visit finds shared deficit 1 with sulfur and
writes the double type over the triple bond, so the final order (4 in
doubled units) is strictly below the initial order (6). -/
theorem c4_counterexample_triple_downgraded :
    hosc.bonds.getD 2 ⟨0, 0, BondType.single⟩ = ⟨2, 3, BondType.triple⟩ ∧
    (∃ m1 : Mol,
      (update_bonds_and_charges rdkitTable (fun _ => true) hosc).1 = Except.ok m1 ∧
      m1.bonds.getD 2 ⟨0, 0, BondType.single⟩ = ⟨2, 3, BondType.double⟩ ∧
      (m1.bonds.getD 2 ⟨0, 0, BondType.single⟩).btype.contrib2 <
        (hosc.bonds.getD 2 ⟨0, 0, BondType.single⟩).btype.contrib2) :=
  ⟨rfl,
   ⟨{ atomicNum := [1, 8, 16, 6], charge := [0, 1, 0, 0],
      bonds := [⟨0, 1, BondType.single⟩, ⟨1, 2, BondType.double⟩,
                ⟨2, 3, BondType.double⟩] },
    rfl, rfl, by decide⟩⟩

/-- Claim C4 amended: the pass only ever writes the double and triple
bond types, so every bond either keeps its type or ends as double or
triple; bonds entering as single, aromatic or double are never lowered,
and the only possible decrease is a triple bond lowered to double.  In
doubled order units, every final order is at least the minimum of the
initial order and 4. -/
theorem c4_amended_bond_order_floor (table : PTable) (san : Mol → Bool) (m m1 : Mol)
    (tr : List Event)
    (h : update_bonds_and_charges table san m = (Except.ok m1, tr)) :
    m1.bonds.length = m.bonds.length ∧
    ∀ i, i < m.bonds.length →
      (min ((m.bonds.getD i ⟨0, 0, BondType.single⟩).btype.contrib2) 4 ≤
        (m1.bonds.getD i ⟨0, 0, BondType.single⟩).btype.contrib2) ∧
      ((m1.bonds.getD i ⟨0, 0, BondType.single⟩).btype =
         (m.bonds.getD i ⟨0, 0, BondType.single⟩).btype ∨
       (m1.bonds.getD i ⟨0, 0, BondType.single⟩).btype = BondType.double ∨
       (m1.bonds.getD i ⟨0, 0, BondType.single⟩).btype = BondType.triple) := by
  have hev : bondsEvolve m m1 := update_evolve table san m m1 (by rw [h])
  refine ⟨hev.1, fun i hi => ?_⟩
  obtain ⟨e1, e2, e3⟩ := hev.2 i hi
  refine ⟨?_, e3⟩
  rcases e3 with h3 | h3 | h3
  · rw [h3]
    exact min_le_left _ _
  · rw [h3]
    exact le_trans (min_le_right _ _) (by norm_num [BondType.contrib2])
  · rw [h3]
    exact le_trans (min_le_right _ _) (by norm_num [BondType.contrib2])

theorem c4_amended_bond_order_floor_witness :
    (min ((h2o.bonds.getD 0 ⟨0, 0, BondType.single⟩).btype.contrib2) 4 ≤
      (h2o.bonds.getD 0 ⟨0, 0, BondType.single⟩).btype.contrib2) ∧
    ((h2o.bonds.getD 0 ⟨0, 0, BondType.single⟩).btype =
       (h2o.bonds.getD 0 ⟨0, 0, BondType.single⟩).btype ∨
     (h2o.bonds.getD 0 ⟨0, 0, BondType.single⟩).btype = BondType.double ∨
     (h2o.bonds.getD 0 ⟨0, 0, BondType.single⟩).btype = BondType.triple) :=
  (c4_amended_bond_order_floor rdkitTable (fun _ => true) h2o h2o
    [Event.readValence 0, Event.readValence 1, Event.readValence 2,
     Event.readValence 1, Event.readValence 0, Event.readValence 2,
     Event.readValence 0, Event.sanitize] rfl).2 0 (by decide)
